import Mathlib

/-!
Verification of the conversation-memory subsystem of the CrayonD backend
(src/Backend/memory.py): the History Store (`SupabaseChatMessageHistory`),
the in-process fallback store (`FallbackChatMessageHistory`), the store
selection in `get_memory`, and the deduplication pass
(`clean_duplicates_in_memory`).

The remote Supabase table is modelled as an optional serialized row for the
single constant session; every remote call takes an explicit reachability
flag (`true` = the call succeeds, `false` = it raises and the surrounding
`except` block runs).  The JSON wire format (`json.dumps` of
`messages_to_dict`, read back by `messages_from_dict` of `json.loads`) is
modelled by an executable encoder and parser over the ordered list of
(role, content) records, with string escaping, so that malformed stored
rows can be represented as strings that fail to parse.
-/

/-- Message role: the `type` field of a chat message (`human` or `ai`). -/
inductive Role where
  | human
  | ai
deriving DecidableEq, Repr

/-- A Message Record: immutable (role, content) pair.  Equality is exact
(role, content) match, as used for duplicate detection in the source. -/
structure Message where
  role : Role
  content : String
deriving DecidableEq, Repr

/-- The comparison `msg.type == message.type and msg.content == message.content`
used by the duplicate checks in `add_message`. -/
def msgEq (a b : Message) : Bool :=
  a.role == b.role && a.content == b.content

/-- Python `lst[-2:]` and `lst[-4:]`: the trailing window of the last `n`
elements. -/
def takeLast (n : Nat) (l : List α) : List α :=
  l.drop (l.length - n)

/-- Role to wire string, as langchain message types serialize. -/
def roleString : Role → String
  | .human => "human"
  | .ai => "ai"

/-- Wire string back to role; unknown type strings fail (as
`messages_from_dict` raises on them). -/
def roleOfString (s : String) : Option Role :=
  if s = "human" then some .human
  else if s = "ai" then some .ai
  else none

/-- JSON string escaping for one character (model of the escapes `json.dumps`
emits for the characters that need them). -/
def escChar (c : Char) : List Char :=
  if c = '"' then ['\\', '"']
  else if c = '\\' then ['\\', '\\']
  else if c = '\n' then ['\\', 'n']
  else if c = '\r' then ['\\', 'r']
  else if c = '\t' then ['\\', 't']
  else [c]

/-- Escape a whole character sequence. -/
def escStr : List Char → List Char
  | [] => []
  | c :: cs => escChar c ++ escStr cs

/-- A JSON string literal: opening quote, escaped body, closing quote. -/
def encStr (l : List Char) : List Char :=
  '"' :: (escStr l ++ ['"'])

/-- Reverse of `escChar` on the character following a backslash. -/
def unescChar (e : Char) : Option Char :=
  if e = '"' then some '"'
  else if e = '\\' then some '\\'
  else if e = 'n' then some '\n'
  else if e = 'r' then some '\r'
  else if e = 't' then some '\t'
  else none

/-- Parse the body of a JSON string (after the opening quote) up to the
closing quote, returning the decoded characters and the remaining input. -/
def parseStrBody : List Char → Option (List Char × List Char)
  | [] => none
  | c :: r =>
    if c = '"' then some ([], r)
    else if c = '\\' then
      match r with
      | [] => none
      | e :: r2 =>
        match unescChar e with
        | some u =>
          match parseStrBody r2 with
          | some (cs, rest) => some (u :: cs, rest)
          | none => none
        | none => none
    else
      match parseStrBody r with
      | some (cs, rest) => some (c :: cs, rest)
      | none => none

/-- Parse a complete JSON string literal (expects the opening quote). -/
def parseJString (l : List Char) : Option (List Char × List Char) :=
  match l with
  | '"' :: r => parseStrBody r
  | _ => none

theorem escStr_append (a b : List Char) :
    escStr (a ++ b) = escStr a ++ escStr b := by
  induction a with
  | nil => simp [escStr]
  | cons c cs ih => simp [escStr, ih]

theorem parseStrBody_quote (rest : List Char) :
    parseStrBody ('"' :: rest) = some ([], rest) := by
  rw [parseStrBody.eq_def]; simp

theorem parseStrBody_esc (e u : Char) (r : List Char) (cs rest : List Char)
    (hu : unescChar e = some u) (h : parseStrBody r = some (cs, rest)) :
    parseStrBody ('\\' :: e :: r) = some (u :: cs, rest) := by
  rw [parseStrBody.eq_def]; simp [hu, h]

theorem parseStrBody_plain (c : Char) (r cs rest : List Char)
    (h1 : c ≠ '"') (h2 : c ≠ '\\') (h : parseStrBody r = some (cs, rest)) :
    parseStrBody (c :: r) = some (c :: cs, rest) := by
  rw [parseStrBody.eq_def]; simp [h1, h2, h]

theorem parseStrBody_escStr (cs : List Char) (rest : List Char) :
    parseStrBody (escStr cs ++ '"' :: rest) = some (cs, rest) := by
  induction cs with
  | nil => simpa [escStr] using parseStrBody_quote rest
  | cons c t ih =>
    have hassoc : escStr (c :: t) ++ '"' :: rest
        = escChar c ++ (escStr t ++ '"' :: rest) := by simp [escStr]
    rw [hassoc]
    by_cases h1 : c = '"'
    · subst h1
      rw [show escChar '"' = ['\\', '"'] from rfl]
      exact parseStrBody_esc _ _ _ _ _ rfl ih
    · by_cases h2 : c = '\\'
      · subst h2
        rw [show escChar '\\' = ['\\', '\\'] from rfl]
        exact parseStrBody_esc _ _ _ _ _ rfl ih
      · by_cases h3 : c = '\n'
        · subst h3
          rw [show escChar '\n' = ['\\', 'n'] from rfl]
          exact parseStrBody_esc _ _ _ _ _ rfl ih
        · by_cases h4 : c = '\r'
          · subst h4
            rw [show escChar '\r' = ['\\', 'r'] from rfl]
            exact parseStrBody_esc _ _ _ _ _ rfl ih
          · by_cases h5 : c = '\t'
            · subst h5
              rw [show escChar '\t' = ['\\', 't'] from rfl]
              exact parseStrBody_esc _ _ _ _ _ rfl ih
            · rw [show escChar c = [c] by simp [escChar, h1, h2, h3, h4, h5]]
              exact parseStrBody_plain c _ _ _ h1 h2 ih

theorem parseJString_encStr (cs : List Char) (rest : List Char) :
    parseJString (encStr cs ++ rest) = some (cs, rest) := by
  show parseJString ('"' :: (escStr cs ++ ['"']) ++ rest) = _
  have : ('"' :: (escStr cs ++ ['"'])) ++ rest
      = '"' :: (escStr cs ++ '"' :: rest) := by simp
  rw [this]
  simp [parseJString, parseStrBody_escStr]

/-- Literal prelude of one serialized record object: an opening brace and
the `type` key. -/
def typeKey : List Char := '\x7b' :: "\"type\":".toList

/-- Literal separator between the role string and the `content` key. -/
def contentKey : List Char := ",\"content\":".toList

/-- Consume an expected literal character sequence from the input. -/
def expectLit : List Char → List Char → Option (List Char)
  | [], r => some r
  | _ :: _, [] => none
  | c :: cs, x :: tail => if x = c then expectLit cs tail else none

/-- Encode one Message Record as a JSON object with its role and content. -/
def encodeMsg (m : Message) : List Char :=
  typeKey ++ encStr (roleString m.role).toList
    ++ contentKey ++ encStr m.content.toList ++ ['\x7d']

/-- Parse one serialized record object, failing on any shape or role
mismatch (as `messages_from_dict` raises on unexpected input). -/
def parseOneMsg (l : List Char) : Option (Message × List Char) :=
  match expectLit typeKey l with
  | some r1 =>
    match parseJString r1 with
    | some (t, r2) =>
      match roleOfString (String.mk t) with
      | some role =>
        match expectLit contentKey r2 with
        | some r3 =>
          match parseJString r3 with
          | some (c, r4) =>
            match r4 with
            | '\x7d' :: r5 => some (⟨role, String.mk c⟩, r5)
            | _ => none
          | none => none
        | none => none
      | none => none
    | none => none
  | none => none

theorem expectLit_append (pat rest : List Char) :
    expectLit pat (pat ++ rest) = some rest := by
  induction pat with
  | nil => simp [expectLit]
  | cons c cs ih => simp [expectLit, ih]

theorem roleOfString_roleString (r : Role) :
    roleOfString (roleString r) = some r := by
  cases r <;> rfl

theorem string_toList_mk (l : List Char) : (String.mk l).toList = l := rfl

theorem string_mk_toList (s : String) : String.mk s.toList = s := by
  cases s; rfl

theorem string_mk_data (s : String) : String.mk s.data = s := by
  cases s; rfl

theorem parseOneMsg_encodeMsg (m : Message) (rest : List Char) :
    parseOneMsg (encodeMsg m ++ rest) = some (m, rest) := by
  have h : encodeMsg m ++ rest
      = typeKey ++ (encStr (roleString m.role).toList
        ++ (contentKey ++ (encStr m.content.toList ++ ('\x7d' :: rest)))) := by
    simp [encodeMsg]
  rw [h]
  simp [parseOneMsg, expectLit_append, parseJString_encStr, string_mk_toList,
    string_mk_data, roleOfString_roleString]

/-- Encode a list of record objects separated by commas (the body of the
JSON array `json.dumps` emits for `messages_to_dict`). -/
def encodeItems : List Message → List Char
  | [] => []
  | m :: ms => encodeMsg m ++ (if ms.isEmpty then [] else ',' :: encodeItems ms)

/-- Parse the comma-separated items of a serialized log up to the closing
bracket; `fuel` bounds the number of separators consumed. -/
def parseItems (fuel : Nat) (l : List Char) : Option (List Message × List Char) :=
  match parseOneMsg l with
  | some (m, r) =>
    match r with
    | ']' :: r2 => some ([m], r2)
    | ',' :: r2 =>
      match fuel with
      | 0 => none
      | f + 1 =>
        match parseItems f r2 with
        | some (ms, r3) => some (m :: ms, r3)
        | none => none
    | _ => none
  | none => none

/-- Serialize a log: `json.dumps(messages_to_dict(messages))`. -/
def encodeLogChars (ms : List Message) : List Char :=
  '[' :: (encodeItems ms ++ [']'])

/-- The serialized log as stored in the `messages` column. -/
def serializeLog (ms : List Message) : String :=
  String.mk (encodeLogChars ms)

/-- Parse a stored serialized log:
`messages_from_dict(json.loads(messages_json))`.  Returns `none` exactly
when that composition raises (malformed JSON or unexpected shape). -/
def parseLogChars (l : List Char) : Option (List Message) :=
  match l with
  | '[' :: r =>
    if r = [']'] then some []
    else
      match parseItems r.length r with
      | some (ms, rest) => if rest = [] then some ms else none
      | none => none
  | _ => none

/-- String-level entry point for parsing a stored serialized log. -/
def parseLog (s : String) : Option (List Message) :=
  parseLogChars s.toList

theorem encodeMsg_cons (m : Message) :
    encodeMsg m = '\x7b' :: ("\"type\":".toList ++ (encStr (roleString m.role).toList
      ++ (contentKey ++ (encStr m.content.toList ++ ['\x7d'])))) := by
  simp [encodeMsg, typeKey]

theorem parseItems_encodeItems (ms : List Message) (m : Message)
    (rest : List Char) (fuel : Nat) (hf : ms.length ≤ fuel) :
    parseItems fuel (encodeItems (m :: ms) ++ ']' :: rest) = some (m :: ms, rest) := by
  induction ms generalizing m fuel with
  | nil =>
    have h : encodeItems [m] ++ ']' :: rest = encodeMsg m ++ ']' :: rest := by
      simp [encodeItems]
    rw [h, parseItems.eq_def]
    simp [parseOneMsg_encodeMsg]
  | cons m2 t ih =>
    have h : encodeItems (m :: m2 :: t) ++ ']' :: rest
        = encodeMsg m ++ ',' :: (encodeItems (m2 :: t) ++ ']' :: rest) := by
      simp [encodeItems]
    rw [h, parseItems.eq_def]
    cases fuel with
    | zero => exact absurd hf (by simp)
    | succ f =>
      have hlen : t.length ≤ f := Nat.succ_le_succ_iff.mp (by simpa using hf)
      simp [parseOneMsg_encodeMsg, ih m2 f hlen]

theorem encodeItems_length (m : Message) (t : List Message) :
    t.length ≤ (encodeItems (m :: t)).length := by
  induction t generalizing m with
  | nil => simp
  | cons m2 t' ih =>
    have h : encodeItems (m :: m2 :: t') = encodeMsg m ++ ',' :: encodeItems (m2 :: t') := by
      simp [encodeItems]
    rw [h]
    have := ih m2
    simp only [List.length_append, List.length_cons, List.length_cons]
    omega

theorem parse_serializeLog (ms : List Message) :
    parseLog (serializeLog ms) = some ms := by
  cases ms with
  | nil =>
    rfl
  | cons m t =>
    obtain ⟨k, hk⟩ : ∃ k, encodeItems (m :: t) = '\x7b' :: k := by
      have h1 : encodeItems (m :: t)
          = encodeMsg m ++ (if t.isEmpty then [] else ',' :: encodeItems t) := by
        simp [encodeItems]
      rw [h1, encodeMsg_cons m, List.cons_append]
      exact ⟨_, rfl⟩
    have hne : encodeItems (m :: t) ++ [']'] ≠ [']'] := by
      rw [hk]
      intro hcon
      rw [List.cons_append] at hcon
      injection hcon with h1 h2
      exact absurd h1 (by decide)
    show parseLogChars ('[' :: (encodeItems (m :: t) ++ [']'])) = some (m :: t)
    rw [parseLogChars.eq_def]
    simp only [hne, if_false]
    have hfuel : t.length ≤ (encodeItems (m :: t) ++ [']']).length := by
      have := encodeItems_length m t
      simp only [List.length_append, List.length_cons]
      omega
    have hp := parseItems_encodeItems t m [] ((encodeItems (m :: t) ++ [']']).length) hfuel
    simp only [List.append_nil] at hp
    have harr : encodeItems (m :: t) ++ [']'] = encodeItems (m :: t) ++ ']' :: ([] : List Char) := rfl
    rw [harr, hp]
    simp

/-- State of `SupabaseChatMessageHistory` together with the remote table it
talks to.  `remote` is the `messages` column of the `chat_memory` row keyed
by the constant session id (`none` = no row); `local_messages` is the
instance field of the same name (the in-process mirror); `global_messages`
is the module-level `LOCAL_MESSAGES` backup list. -/
structure SupabaseHistory where
  remote : Option String
  local_messages : List Message
  global_messages : List Message
deriving DecidableEq, Repr

namespace SupabaseHistory

/-- Model of `SupabaseChatMessageHistory.get_messages`.  `ok` says whether
the remote select succeeds; on failure the `except` branch returns the
mirror.  A successful select with a truthy `messages` column is parsed; a
parse error is caught by the same `except` branch and also returns the
mirror.  A successful parse overwrites the mirror with the parsed list. -/
def get_messages (ok : Bool) (s : SupabaseHistory) :
    List Message × SupabaseHistory :=
  if ok then
    match s.remote with
    | some messages_json =>
      if messages_json ≠ "" then
        match parseLog messages_json with
        | some msgs => (msgs, { s with local_messages := msgs })
        | none => (s.local_messages, s)
      else (s.local_messages, s)
    | none => (s.local_messages, s)
  else (s.local_messages, s)

/-- Model of `SupabaseChatMessageHistory.add_message`.  `okGet` is the
reachability of the select inside the initial `get_messages` call;
`okUpsert` says whether the select-then-update-or-insert sequence completes
(an exception anywhere in it is swallowed after the mirror append).  The
duplicate check scans the last 2 entries of the fetched log; the global
backup list has its own last-2 duplicate check. -/
def add_message (okGet okUpsert : Bool) (message : Message)
    (s : SupabaseHistory) : SupabaseHistory :=
  let res := get_messages okGet s
  let current_messages := res.1
  let s1 := res.2
  if !current_messages.isEmpty
      && (takeLast 2 current_messages).any (fun msg => msgEq msg message) then
    s1
  else
    let s2 := { s1 with
      local_messages := s1.local_messages ++ [message],
      global_messages :=
        if (takeLast 2 s1.global_messages).any (fun msg => msgEq msg message)
        then s1.global_messages
        else s1.global_messages ++ [message] }
    if okUpsert then
      { s2 with remote := some (serializeLog s2.local_messages) }
    else s2

/-- Model of `SupabaseChatMessageHistory.clear`.  The remote delete may
fail (`ok = false`), in which case the row survives; the mirror and the
global backup are emptied unconditionally afterwards. -/
def clear (ok : Bool) (s : SupabaseHistory) : SupabaseHistory :=
  let s1 := if ok then { s with remote := none } else s
  { s1 with local_messages := [], global_messages := [] }

end SupabaseHistory

/-- State of `FallbackChatMessageHistory`: its `messages` list and the
module-level `LOCAL_MESSAGES` backup. -/
structure FallbackHistory where
  messages : List Message
  global_messages : List Message
deriving DecidableEq, Repr

namespace FallbackHistory

/-- Model of `FallbackChatMessageHistory.add_message`: unconditional append
to the instance list and to the global backup; no duplicate check. -/
def add_message (message : Message) (s : FallbackHistory) : FallbackHistory :=
  { messages := s.messages ++ [message],
    global_messages := s.global_messages ++ [message] }

/-- Model of `FallbackChatMessageHistory.clear`: empties both lists. -/
def clear (_s : FallbackHistory) : FallbackHistory :=
  { messages := [], global_messages := [] }

end FallbackHistory

/-- The chat-history store selected by `get_memory`, hidden behind the
`ConversationBufferMemory` façade. -/
inductive Memory where
  | supabase (history : SupabaseHistory)
  | fallback (history : FallbackHistory)
deriving DecidableEq, Repr

/-- Model of `get_memory`: if client construction succeeds the Supabase
store is used (fresh empty mirror over whatever row the table already
holds); if it raises, a fresh `FallbackChatMessageHistory` is used. -/
def get_memory (constructionOk : Bool) (existingRemote : Option String) : Memory :=
  if constructionOk then .supabase ⟨existingRemote, [], []⟩
  else .fallback ⟨[], []⟩

/-- The deduplication loop of `clean_duplicates_in_memory`: walk the list,
tracking the set of (type, content) pairs already seen, and keep a message
only if its pair is new. -/
def uniqueMessages : List Message → List (Role × String) → List Message
  | [], _ => []
  | msg :: rest, seen =>
    if (msg.role, msg.content) ∈ seen then uniqueMessages rest seen
    else msg :: uniqueMessages rest ((msg.role, msg.content) :: seen)

/-- The pure Deduplicator: `clean_duplicates_in_memory`'s computation of
`unique_messages` from the fetched message list (started with an empty
`seen_messages` set). -/
def clean_duplicates (messages : List Message) : List Message :=
  uniqueMessages messages []

/-- Stated from the spec's words, for comparison with `clean_duplicates`:
retain only the first occurrence of each distinct (role, content) pair,
preserving original order. -/
def keepFirstOccurrences : List Message → List Message
  | [] => []
  | m :: rest => m :: keepFirstOccurrences (rest.filter (fun x => !(msgEq x m)))
termination_by l => l.length
decreasing_by
  simp only [List.length_cons]
  exact Nat.lt_succ_of_le (List.length_filter_le _ _)

theorem serializeLog_ne_empty (ms : List Message) : serializeLog ms ≠ "" := by
  intro h
  have h2 := congrArg String.toList h
  rw [serializeLog, string_toList_mk] at h2
  rw [show ("" : String).toList = [] from rfl] at h2
  simp [encodeLogChars] at h2

/-- States in which the remote row (when present) is exactly the serialized
mirror: the Supabase store preserves this when its remote calls succeed. -/
def StoreInv (s : SupabaseHistory) : Prop :=
  s.remote = none ∨ s.remote = some (serializeLog s.local_messages)

theorem get_messages_false (s : SupabaseHistory) :
    SupabaseHistory.get_messages false s = (s.local_messages, s) := rfl

theorem get_messages_inv (s : SupabaseHistory) (h : StoreInv s) :
    SupabaseHistory.get_messages true s = (s.local_messages, s) := by
  obtain ⟨r, loc, glob⟩ := s
  rcases h with hnone | hser <;>
    simp_all [SupabaseHistory.get_messages, serializeLog_ne_empty,
      parse_serializeLog]

/-- Write-time suppression, as the spec states it: appending unless the
record duplicates one of the last two entries of the current log. -/
def addIfNotDup (l : List Message) (m : Message) : List Message :=
  if !l.isEmpty && (takeLast 2 l).any (fun msg => msgEq msg m) then l
  else l ++ [m]

theorem add_message_true_inv (m : Message) (s : SupabaseHistory) (h : StoreInv s) :
    (SupabaseHistory.add_message true true m s).local_messages
        = addIfNotDup s.local_messages m
      ∧ StoreInv (SupabaseHistory.add_message true true m s) := by
  have hadd : SupabaseHistory.add_message true true m s
      = if !s.local_messages.isEmpty
            && (takeLast 2 s.local_messages).any (fun msg => msgEq msg m) then s
        else { remote := some (serializeLog (s.local_messages ++ [m])),
               local_messages := s.local_messages ++ [m],
               global_messages :=
                 if (takeLast 2 s.global_messages).any (fun msg => msgEq msg m)
                 then s.global_messages else s.global_messages ++ [m] } := by
    unfold SupabaseHistory.add_message
    rw [get_messages_inv s h]
    rfl
  by_cases hc : (!s.local_messages.isEmpty
      && (takeLast 2 s.local_messages).any (fun msg => msgEq msg m)) = true
  · rw [hadd, if_pos hc]
    simp only [addIfNotDup]
    rw [if_pos hc]
    exact ⟨rfl, h⟩
  · rw [hadd, if_neg hc]
    simp only [addIfNotDup]
    rw [if_neg hc]
    exact ⟨rfl, Or.inr rfl⟩

/-- A sequence of `add_message` calls with all remote calls succeeding. -/
def runAdds (ms : List Message) (s : SupabaseHistory) : SupabaseHistory :=
  ms.foldl (fun acc m => SupabaseHistory.add_message true true m acc) s

theorem runAdds_inv (ms : List Message) :
    ∀ s : SupabaseHistory, StoreInv s →
      StoreInv (runAdds ms s)
        ∧ (runAdds ms s).local_messages = ms.foldl addIfNotDup s.local_messages := by
  induction ms with
  | nil => intro s h; exact ⟨h, rfl⟩
  | cons m t ih =>
    intro s h
    obtain ⟨hloc, hinv⟩ := add_message_true_inv m s h
    have hrec := ih (SupabaseHistory.add_message true true m s) hinv
    refine ⟨hrec.1, ?_⟩
    rw [show runAdds (m :: t) s
        = runAdds t (SupabaseHistory.add_message true true m s) from rfl]
    rw [hrec.2, hloc]
    rfl

/-- The Supabase store as `get_memory` builds it over an empty table. -/
def freshStore : SupabaseHistory := ⟨none, [], []⟩

theorem msgEq_iff (a b : Message) : msgEq a b = true ↔ a = b := by
  cases a; cases b
  simp [msgEq, Message.mk.injEq]

theorem uniqueMessages_cons_mem (m : Message) (rest : List Message)
    (seen : List (Role × String)) (h : (m.role, m.content) ∈ seen) :
    uniqueMessages (m :: rest) seen = uniqueMessages rest seen := by
  rw [uniqueMessages.eq_def]; simp [h]

theorem uniqueMessages_cons_new (m : Message) (rest : List Message)
    (seen : List (Role × String)) (h : (m.role, m.content) ∉ seen) :
    uniqueMessages (m :: rest) seen
      = m :: uniqueMessages rest ((m.role, m.content) :: seen) := by
  rw [uniqueMessages.eq_def]; simp [h]

theorem uniqueMessages_idem (l : List Message) :
    ∀ seen, uniqueMessages (uniqueMessages l seen) seen = uniqueMessages l seen := by
  induction l with
  | nil => intro seen; rfl
  | cons m rest ih =>
    intro seen
    by_cases hmem : (m.role, m.content) ∈ seen
    · rw [uniqueMessages_cons_mem m rest seen hmem]
      exact ih seen
    · rw [uniqueMessages_cons_new m rest seen hmem,
        uniqueMessages_cons_new m _ seen hmem,
        ih ((m.role, m.content) :: seen)]

theorem keepFirst_nil : keepFirstOccurrences [] = [] := by
  rw [keepFirstOccurrences]

theorem uniqueMessages_eq_keepFirst (l : List Message) :
    ∀ seen, uniqueMessages l seen
      = keepFirstOccurrences
          (l.filter (fun x => !decide ((x.role, x.content) ∈ seen))) := by
  induction l with
  | nil => intro seen; simp [keepFirst_nil]; rfl
  | cons m rest ih =>
    intro seen
    by_cases hmem : (m.role, m.content) ∈ seen
    · rw [uniqueMessages_cons_mem m rest seen hmem, ih seen]
      congr 1
      simp [List.filter_cons, hmem]
    · rw [uniqueMessages_cons_new m rest seen hmem,
        ih ((m.role, m.content) :: seen)]
      have hfil : (m :: rest).filter (fun x => !decide ((x.role, x.content) ∈ seen))
          = m :: rest.filter (fun x => !decide ((x.role, x.content) ∈ seen)) := by
        simp [List.filter_cons, hmem]
      rw [hfil, keepFirstOccurrences]
      congr 1
      rw [List.filter_filter]
      congr 1
      apply List.filter_congr
      intro a _
      by_cases h1 : (a.role, a.content) ∈ seen
      · by_cases h2 : msgEq a m = true <;> simp [h1, h2]
      · by_cases h2 : msgEq a m = true
        · have : a = m := (msgEq_iff a m).mp h2
          subst this
          simp [h1, h2]
        · have hne : (a.role, a.content) ≠ (m.role, m.content) := by
            intro hcon
            apply h2
            rw [msgEq_iff]
            cases a; cases m
            simpa using hcon
          simp [h1, h2, hne]

theorem clean_duplicates_eq_keepFirst (l : List Message) :
    clean_duplicates l = keepFirstOccurrences l := by
  have h := uniqueMessages_eq_keepFirst l []
  simpa [clean_duplicates, List.filter_true] using h

theorem clean_duplicates_idem (l : List Message) :
    clean_duplicates (clean_duplicates l) = clean_duplicates l :=
  uniqueMessages_idem l []

/-- C1: for every sequence of `add_message` calls on the History Store
(remote reachable throughout, empty initial table), a subsequent
`get_messages()` returns exactly the added records in call order minus the
records suppressed at write time by the last-2-window duplicate check; in
particular, adding (human, "What is X?") then (ai, "X is ...") to an empty
store makes `get_messages()` return exactly those two records in order. -/
theorem C1_get_messages_returns_adds_in_order :
    (∀ ms : List Message,
      (SupabaseHistory.get_messages true (runAdds ms freshStore)).1
        = ms.foldl addIfNotDup [])
    ∧ (SupabaseHistory.get_messages true
        (runAdds [⟨.human, "What is X?"⟩, ⟨.ai, "X is ..."⟩] freshStore)).1
      = [⟨.human, "What is X?"⟩, ⟨.ai, "X is ..."⟩] := by
  constructor
  · intro ms
    have h := runAdds_inv ms freshStore (Or.inl rfl)
    rw [get_messages_inv _ h.1]
    exact h.2
  · decide

/-- C2 counterexample: the claim quantifies over every History Store
implementation, but the in-process fallback store appends unconditionally:
adding (human, "hi") twice to an empty `FallbackChatMessageHistory` leaves
two identical adjacent records, not one. -/
theorem C2_counterexample :
    (FallbackHistory.add_message ⟨.human, "hi"⟩
        (FallbackHistory.add_message ⟨.human, "hi"⟩ ⟨[], []⟩)).messages
        = [⟨.human, "hi"⟩, ⟨.human, "hi"⟩]
    ∧ (FallbackHistory.add_message ⟨.human, "hi"⟩
        (FallbackHistory.add_message ⟨.human, "hi"⟩ ⟨[], []⟩)).messages.length
      ≠ 1 := by
  decide

/-- C2 (amended): the remote-backed store alone enforces the window
invariant: when the record to add equals one of the last 2 entries of the
current log, `add_message` is a no-op, and adding (human, "hi") twice to an
empty remote-backed store leaves exactly one record; the fallback store
performs no such check. -/
theorem C2_supabase_window_noop (s : SupabaseHistory) (m : Message)
    (h : StoreInv s)
    (hdup : (takeLast 2 s.local_messages).any (fun msg => msgEq msg m) = true) :
    SupabaseHistory.add_message true true m s = s
    ∧ (SupabaseHistory.get_messages true
        (runAdds [⟨.human, "hi"⟩, ⟨.human, "hi"⟩] freshStore)).1
      = [⟨.human, "hi"⟩] := by
  constructor
  · have hne : s.local_messages ≠ [] := by
      intro hcon
      rw [hcon] at hdup
      simp [takeLast] at hdup
    have hcond : (!s.local_messages.isEmpty
        && (takeLast 2 s.local_messages).any (fun msg => msgEq msg m)) = true := by
      rw [hdup]
      cases hloc : s.local_messages with
      | nil => exact absurd hloc hne
      | cons a t => simp
    unfold SupabaseHistory.add_message
    rw [get_messages_inv s h]
    show (if (!s.local_messages.isEmpty
        && (takeLast 2 s.local_messages).any (fun msg => msgEq msg m)) = true
      then s else _) = s
    rw [if_pos hcond]
  · decide

/-- C2 witness: the no-op fires on a concrete store holding (human, "hi")
when the same record is added again. -/
theorem C2_witness :
    SupabaseHistory.add_message true true ⟨.human, "hi"⟩
        ⟨some (serializeLog [⟨.human, "hi"⟩]), [⟨.human, "hi"⟩], [⟨.human, "hi"⟩]⟩
        = ⟨some (serializeLog [⟨.human, "hi"⟩]), [⟨.human, "hi"⟩], [⟨.human, "hi"⟩]⟩
    ∧ (SupabaseHistory.get_messages true
        (runAdds [⟨.human, "hi"⟩, ⟨.human, "hi"⟩] freshStore)).1
      = [⟨.human, "hi"⟩] :=
  C2_supabase_window_noop _ _ (Or.inr rfl) (by decide)

/-- C3 counterexample: the store has no sticky degraded state.  Add
(human, "m1") with the remote reachable, then run `clear()` whose remote
delete fails (a remote call failure, so the claimed DEGRADED state is
entered; the mirror is now empty while the stale remote row survives).  A
later `get_messages()` with the remote reachable again returns the remote
row's record — it contacts the remote store instead of serving the
(empty) in-process mirror. -/
theorem C3_counterexample :
    (SupabaseHistory.clear false
        (SupabaseHistory.add_message true true ⟨.human, "m1"⟩ freshStore)).local_messages
        = []
    ∧ (SupabaseHistory.get_messages true
        (SupabaseHistory.clear false
          (SupabaseHistory.add_message true true ⟨.human, "m1"⟩ freshStore))).1
      = [⟨.human, "m1"⟩] := by
  decide

/-- C3 (amended): a failed remote call is served from the in-process
mirror for that call only; the store retries the remote on every
subsequent operation (no degraded state is remembered), so a later
successful remote call is served from the remote store — as witnessed by a
post-failure state whose reachable-remote read differs from its mirror. -/
theorem C3_no_sticky_degraded :
    (∀ s : SupabaseHistory,
      SupabaseHistory.get_messages false s = (s.local_messages, s))
    ∧ (SupabaseHistory.get_messages true
        (SupabaseHistory.clear false
          (SupabaseHistory.add_message true true ⟨.human, "m1"⟩ freshStore))).1
      ≠ (SupabaseHistory.clear false
          (SupabaseHistory.add_message true true ⟨.human, "m1"⟩ freshStore)).local_messages := by
  exact ⟨fun s => rfl, by decide⟩

/-- C4 counterexample: with a malformed serialized log stored remotely and
a non-empty mirror, `get_messages()` returns the mirror, not the empty
history the claim requires. -/
theorem C4_counterexample :
    (SupabaseHistory.get_messages true
        ⟨some "not json", [⟨.human, "m1"⟩], []⟩).1
        = [⟨.human, "m1"⟩]
    ∧ (SupabaseHistory.get_messages true
        ⟨some "not json", [⟨.human, "m1"⟩], []⟩).1
      ≠ [] := by
  decide

/-- C4 (amended): when the remote read succeeds but the stored serialized
log is malformed, `get_messages()` does not raise and returns the current
in-process mirror unchanged (hence the empty history exactly when the
mirror is empty). -/
theorem C4_malformed_returns_mirror (s : SupabaseHistory) (j : String)
    (hr : s.remote = some j) (hj : parseLog j = none) :
    SupabaseHistory.get_messages true s = (s.local_messages, s) := by
  obtain ⟨r, loc, glob⟩ := s
  simp only at hr
  subst hr
  by_cases hempty : j = ""
  · subst hempty
    rfl
  · simp [SupabaseHistory.get_messages, hempty, hj]

/-- C4 witness: a concrete store with stored log "xyz" (unparseable) and a
one-record mirror returns that mirror. -/
theorem C4_witness :
    SupabaseHistory.get_messages true ⟨some "xyz", [⟨.human, "m1"⟩], []⟩
      = ([⟨.human, "m1"⟩], ⟨some "xyz", [⟨.human, "m1"⟩], []⟩) :=
  C4_malformed_returns_mirror _ "xyz" rfl (by decide)

/-- C5 counterexample: add (human, "m1") with the remote reachable, then
add (ai, "m2") whose remote upsert fails.  The record is in the mirror,
but a later `get_messages()` with the remote reachable reads the stale
remote row (which predates the failed upsert), overwrites the mirror with
it, and returns a history without (ai, "m2") — so not every later
`get_messages()` for the rest of the process includes the record. -/
theorem C5_counterexample :
    (⟨.ai, "m2"⟩ : Message) ∈ (SupabaseHistory.add_message true false ⟨.ai, "m2"⟩
        (SupabaseHistory.add_message true true ⟨.human, "m1"⟩ freshStore)).local_messages
    ∧ (⟨.ai, "m2"⟩ : Message) ∉ (SupabaseHistory.get_messages true
        (SupabaseHistory.add_message true false ⟨.ai, "m2"⟩
          (SupabaseHistory.add_message true true ⟨.human, "m1"⟩ freshStore))).1 := by
  decide

/-- C5 (amended): if the remote upsert inside `add_message` fails (and the
record passed the duplicate check), the failure is swallowed, the record
is already in the mirror, and every later `get_messages()` served from the
mirror (i.e. while remote reads keep failing) still includes it; a later
successful remote read may overwrite the mirror with the stale remote log
and drop it. -/
theorem C5_mirror_keeps_record (s : SupabaseHistory) (m : Message) (okGet : Bool)
    (hnd : (!(SupabaseHistory.get_messages okGet s).1.isEmpty
        && (takeLast 2 (SupabaseHistory.get_messages okGet s).1).any
             (fun msg => msgEq msg m)) = false) :
    m ∈ (SupabaseHistory.add_message okGet false m s).local_messages
    ∧ (SupabaseHistory.get_messages false
        (SupabaseHistory.add_message okGet false m s)).1
      = (SupabaseHistory.add_message okGet false m s).local_messages := by
  constructor
  · unfold SupabaseHistory.add_message
    rw [if_neg (by rw [hnd]; exact Bool.false_ne_true)]
    simp
  · rfl

/-- C5 witness: an add with failing upsert on the empty store leaves the
record visible in a mirror-served read. -/
theorem C5_witness :
    (⟨.human, "hi"⟩ : Message)
        ∈ (SupabaseHistory.add_message true false ⟨.human, "hi"⟩ freshStore).local_messages
    ∧ (SupabaseHistory.get_messages false
        (SupabaseHistory.add_message true false ⟨.human, "hi"⟩ freshStore)).1
      = (SupabaseHistory.add_message true false ⟨.human, "hi"⟩ freshStore).local_messages :=
  C5_mirror_keeps_record freshStore ⟨.human, "hi"⟩ true (by decide)

/-- C6: serialization round-trips losslessly: parsing the serialized form
of any log yields the same records in the same order, including empty and
non-ASCII content with newlines, quotes and escapes. -/
theorem C6_serialization_roundtrip :
    (∀ ms : List Message, parseLog (serializeLog ms) = some ms)
    ∧ parseLog (serializeLog [⟨.human, "héllo\n\"wörld\"\t✓"⟩, ⟨.ai, ""⟩])
      = some [⟨.human, "héllo\n\"wörld\"\t✓"⟩, ⟨.ai, ""⟩] :=
  ⟨parse_serializeLog, parse_serializeLog _⟩

/-- C7: the Deduplicator is a pure function returning the subsequence that
keeps only the first occurrence of each distinct (role, content) pair in
original order, and it is idempotent: applied to its own output it makes
no further removals. -/
theorem C7_deduplicator_first_occurrence_idempotent :
    ∀ l : List Message,
      clean_duplicates l = keepFirstOccurrences l
      ∧ clean_duplicates (clean_duplicates l) = clean_duplicates l :=
  fun l => ⟨clean_duplicates_eq_keepFirst l, clean_duplicates_idem l⟩

/-- C8 counterexample: add three records with the remote reachable, then
run `clear()` whose remote delete fails.  The mirror is emptied, but the
stale remote row survives, so a later `get_messages()` with the remote
reachable returns the three old records rather than the empty sequence
the claim promises for the delete-failure case. -/
theorem C8_counterexample :
    (SupabaseHistory.get_messages true
        (SupabaseHistory.clear false
          (runAdds [⟨.human, "a"⟩, ⟨.ai, "b"⟩, ⟨.human, "c"⟩] freshStore))).1
        = [⟨.human, "a"⟩, ⟨.ai, "b"⟩, ⟨.human, "c"⟩]
    ∧ (SupabaseHistory.get_messages true
        (SupabaseHistory.clear false
          (runAdds [⟨.human, "a"⟩, ⟨.ai, "b"⟩, ⟨.human, "c"⟩] freshStore))).1
      ≠ [] := by
  decide

/-- C8 (amended): `clear()` empties the in-process mirror (and the global
backup) unconditionally, even when the remote delete fails; when the
remote delete succeeds, every later `get_messages()` returns the empty
sequence — in particular after clearing a store that received three adds.
When the delete fails, only reads served from the mirror are empty: a
later successful remote read returns the stale row. -/
theorem C8_clear_empties_mirror :
    (∀ (s : SupabaseHistory) (ok : Bool),
        (SupabaseHistory.clear ok s).local_messages = []
        ∧ (SupabaseHistory.clear ok s).global_messages = [])
    ∧ (∀ (s : SupabaseHistory) (b : Bool),
        (SupabaseHistory.get_messages b (SupabaseHistory.clear true s)).1 = [])
    ∧ (SupabaseHistory.get_messages true
        (SupabaseHistory.clear true
          (runAdds [⟨.human, "a"⟩, ⟨.ai, "b"⟩, ⟨.human, "c"⟩] freshStore))).1
      = [] := by
  refine ⟨?_, ?_, by decide⟩
  · intro s ok
    cases ok <;> exact ⟨rfl, rfl⟩
  · intro s b
    cases b <;> rfl

/-- A sequence of `add_message` calls on the fallback store. -/
def runFallbackAdds (ms : List Message) (s : FallbackHistory) : FallbackHistory :=
  ms.foldl (fun acc m => FallbackHistory.add_message m acc) s

theorem runFallbackAdds_messages (ms : List Message) :
    ∀ s : FallbackHistory, (runFallbackAdds ms s).messages = s.messages ++ ms := by
  induction ms with
  | nil => intro s; simp [runFallbackAdds]
  | cons m t ih =>
    intro s
    rw [show runFallbackAdds (m :: t) s
        = runFallbackAdds t (FallbackHistory.add_message m s) from rfl]
    rw [ih]
    simp [FallbackHistory.add_message]

/-- C9: when construction of the remote-backed store fails, `get_memory`
returns an in-process fallback store with the same interface, and every
subsequent get/add/clear on it is a total function of the in-process state
alone (the fallback store has no remote component at all): reads return
exactly what was appended, and clear empties the store. -/
theorem C9_construction_failure_uses_fallback :
    (∀ existingRemote : Option String,
        get_memory false existingRemote = .fallback ⟨[], []⟩)
    ∧ (∀ ms : List Message, (runFallbackAdds ms ⟨[], []⟩).messages = ms)
    ∧ (∀ s : FallbackHistory, (FallbackHistory.clear s).messages = []) := by
  refine ⟨fun _ => rfl, ?_, fun _ => rfl⟩
  intro ms
  rw [runFallbackAdds_messages]
  rfl

/-- C10: when the remote read succeeds but no row (or a row with an empty
`messages` field) exists for the session, `get_messages()` returns the
in-process mirror unmodified — locally-held records stay visible. -/
theorem C10_no_row_returns_mirror (s : SupabaseHistory)
    (h : s.remote = none ∨ s.remote = some "") :
    SupabaseHistory.get_messages true s = (s.local_messages, s) := by
  obtain ⟨r, loc, glob⟩ := s
  simp only at h
  rcases h with h | h <;> subst h <;> rfl

/-- C10 witness: a reachable remote with no row leaves a one-record mirror
visible and the state unchanged. -/
theorem C10_witness :
    SupabaseHistory.get_messages true ⟨none, [⟨.human, "m1"⟩], []⟩
      = ([⟨.human, "m1"⟩], ⟨none, [⟨.human, "m1"⟩], []⟩) :=
  C10_no_row_returns_mirror _ (Or.inl rfl)
